import Mathlib

/-!
Verification of the flake8 hook pipeline (`flake8/hooks.py`, `flake8/run.py`).

Python strings are modelled as `List Char` (`Str`); file systems, codecs,
subprocesses and checkers are modelled as explicit oracles threaded through
the embedded functions.  Each embedded definition is translated from the
source file and line it names.
-/

set_option autoImplicit false

/-- A Python string, modelled as its character list. -/
abbrev Str := List Char

/-- Coerce a Lean string literal to the `Str` model. -/
def strL (s : String) : Str := s.data

/-!
## Path model (`os.path`, posix flavour)

These mirror the `os.path` operations used by `git_hook` in
`flake8/hooks.py` lines 72-80.  Inputs are assumed to be the normalized
absolute strings that `os.path.abspath` produces there.
-/

/-- `os.path.commonprefix([a, b])`: the character-wise longest common
prefix of the two strings (it is *not* component-aware). -/
def lcpChars : Str → Str → Str
  | a :: as, b :: bs => if a = b then a :: lcpChars as bs else []
  | _, _ => []

/-- Worker for `splitAll`: accumulates the current (reversed) component. -/
def splitAllGo (cur : Str) : Str → List Str
  | [] => if cur = [] then [] else [cur.reverse]
  | c :: rest =>
    if c = '/' then
      if cur = [] then splitAllGo [] rest else cur.reverse :: splitAllGo [] rest
    else splitAllGo (c :: cur) rest

/-- `[x for x in p.split('/') if x]`: the non-empty `'/'`-separated
components of a path, as used by `posixpath.relpath`. -/
def splitAll (p : Str) : List Str := splitAllGo [] p

/-- Length of the longest common prefix of two component lists
(`os.path.commonprefix` applied to the two component lists inside
`posixpath.relpath`). -/
def lcpLen : List Str → List Str → Nat
  | a :: as, b :: bs => if a = b then lcpLen as bs + 1 else 0
  | _, _ => 0

/-- `os.pardir`. -/
def pardirS : Str := ['.', '.']

/-- `os.curdir`. -/
def curdirS : Str := ['.']

/-- `posixpath.join(*parts)` for parts having no leading slash: components
interleaved with `'/'`. -/
def interSlash : List Str → Str
  | [] => []
  | [x] => x
  | x :: xs => x ++ '/' :: interSlash xs

/-- `a.endswith('/')`. -/
def endsSlash (a : Str) : Bool := a.reverse.head? = some '/'

/-- `posixpath.join(a, b)` for a single right operand. -/
def pathJoin (a b : Str) : Str :=
  if b.head? = some '/' then b
  else if a = [] ∨ endsSlash a then a ++ b
  else a ++ '/' :: b

/-- The `rel_list` of `posixpath.relpath(path, start)`: one `'..'` per
unshared `start` component, then the unshared `path` components. -/
def relList (path start : Str) : List Str :=
  List.replicate ((splitAll start).length - lcpLen (splitAll start) (splitAll path)) pardirS ++
    (splitAll path).drop (lcpLen (splitAll start) (splitAll path))

/-- `posixpath.relpath(path, start)` for already-absolute, normalized
arguments: component lists are compared, the unshared `start` components
become `'..'` entries, and the remainder of `path` follows; an empty
`rel_list` yields `os.curdir`. -/
def relpath (path start : Str) : Str :=
  if relList path start = [] then curdirS else interSlash (relList path start)

/-- `p.rstrip('/')`. -/
def rstripSlash (s : Str) : Str := (s.reverse.dropWhile (· = '/')).reverse

/-- `posixpath.split(p)`: split at the final `'/'`; the head keeps no
trailing slashes unless it consists only of slashes. -/
def pathSplit (p : Str) : Str × Str :=
  let tl := (p.reverse.takeWhile (· ≠ '/')).reverse
  let hd := p.take (p.length - tl.length)
  (if hd.all (· = '/') then hd else rstripSlash hd, tl)

/-- The materialized staging path computed by `git_hook`
(`flake8/hooks.py` lines 72-80) for the absolute path `absfile` of a
changed file and the staging root `tmpdir`:
`dirname, filename = os.path.split(os.path.abspath(file_))`;
`prefix = os.path.commonprefix([dirname, tmpdir])`;
`dirname = os.path.relpath(dirname, start=prefix)`;
`dirname = os.path.join(tmpdir, dirname)`;
`filename = os.path.join(dirname, filename)`. -/
def materializedPath (absfile tmpdir : Str) : Str :=
  let dn := (pathSplit absfile).1
  let fn := (pathSplit absfile).2
  let pre := lcpChars dn tmpdir
  let rel := relpath dn pre
  pathJoin (pathJoin tmpdir rel) fn

/-!
## Encoding detector

`git_hook` (`flake8/hooks.py` lines 56-68) reads the first two lines of the
working-tree file and applies `re.search(r'coding[=:]\s*([-\w.]+)', line)`
to each, keeping the first captured group of the first matching line.
-/

/-- Python `\s` on a byte string: the six ASCII whitespace characters. -/
def isSpaceChar (c : Char) : Bool :=
  c == ' ' || c == '\t' || c == '\n' || c == '\r' || c == '\x0b' || c == '\x0c'

/-- Python `[-\w.]` on a byte string without `re.UNICODE`:
`[a-zA-Z0-9_]`, `'-'` or `'.'`. -/
def isCodingNameChar (c : Char) : Bool :=
  c.isAlpha || c.isDigit || c == '_' || c == '-' || c == '.'

/-- Attempt the pattern `coding[=:]\s*([-\w.]+)` anchored at the head of
`s`; returns the captured group.  `\s` and `[-\w.]` are disjoint character
classes, so the greedy match needs no backtracking. -/
def matchCodingAt (s : Str) : Option Str :=
  match s with
  | 'c' :: 'o' :: 'd' :: 'i' :: 'n' :: 'g' :: sep :: rest =>
    if sep = '=' ∨ sep = ':' then
      let name := (rest.dropWhile isSpaceChar).takeWhile isCodingNameChar
      if name = [] then none else some name
    else none
  | _ => none

/-- `re.search(r'coding[=:]\s*([-\w.]+)', line)`: the leftmost match's
captured group, or `none`. -/
def searchCoding : Str → Option Str
  | [] => none
  | c :: rest =>
    match matchCodingAt (c :: rest) with
    | some name => some name
    | none => searchCoding rest

/-- The coding-detection loop of `git_hook` (`flake8/hooks.py` lines
59-68): `fh.readline()` is called twice (yielding `''` past the end of the
file), each line is searched, the first match's capture is kept, and the
`for`/`else` leaves `coding = None` when neither line matches. -/
def detectCoding (lines : List Str) : Option Str :=
  match searchCoding (lines.getD 0 []) with
  | some c => some c
  | none => searchCoding (lines.getD 1 [])

/-!
## `git_hook` (`flake8/hooks.py` lines 25-97)

The hook is embedded as a function of an explicit oracle environment:
file system, codecs, the `git show` subprocess and the style-guide checker
are all environment fields.  The `(returncode, stdout, stderr)` triple of
`run(gitcmd)` is a separate argument, mirroring
`_, files_modified, _ = run(gitcmd)` (the return code is bound to `_`).
The Python-2 semantics of the source (`xrange`, `basestring`, implicit
ASCII encoding when writing a `unicode` with no detected coding) are
modelled by the `encodeDefault`/`decodeDefault` oracles.
-/

/-- The exceptions that can escape the `try` block of `git_hook`. -/
inductive HookExc where
  /-- `open(file_)` raised `IOError`. -/
  | ioError
  /-- `stdout.decode(...)` raised `UnicodeDecodeError` inside `run`. -/
  | decodeError
  /-- `out.encode(coding)` (or the implicit encode on write) raised. -/
  | encodeError
  /-- `files_to_check.append(filename)` with `filename` never assigned
  (no loop iteration ran): `NameError`. -/
  | nameError
  /-- `flake8_style.check_files` raised. -/
  | checkerError
deriving DecidableEq

/-- Oracle environment for one `git_hook` run. -/
structure HookEnv where
  /-- Current working directory (`os.path.abspath` joins against it). -/
  cwd : Str
  /-- The fresh directory returned by `mkdtemp()`. -/
  tmpdir : Str
  /-- `open(file_)` on the *working tree* followed by `readline()`s:
  the physical lines of the on-disk file, or `none` when `open` raises. -/
  workingLines : Str → Option (List Str)
  /-- Raw bytes printed by `git show :<path>` (the index-recorded
  content). -/
  stagedRaw : Str → Str
  /-- `bytes.decode(coding)`; `none` models `UnicodeDecodeError`. -/
  decodeWith : Str → Str → Option Str
  /-- `bytes.decode()` with the default codec. -/
  decodeDefault : Str → Option Str
  /-- `text.encode(coding)`; `none` models `UnicodeEncodeError`. -/
  encodeWith : Str → Str → Option Str
  /-- The implicit encode performed by `fh.write` on a `unicode` value
  when no coding was detected. -/
  encodeDefault : Str → Option Str
  /-- `flake8_style.check_files(paths).total_errors`; `none` models a
  checker exception. -/
  checkFiles : List Str → Option Nat

/-- `f.endswith('.py')`. -/
def endsWithPy (f : Str) : Bool := (strL ".py").isSuffixOf f

/-- One iteration of the staging loop of `git_hook` (`flake8/hooks.py`
lines 58-88): detect the coding from the first two working-tree lines,
fetch and decode the staged bytes, compute the materialized path, and
re-encode for the binary write.  Returns the materialized path, the bytes
written and the detected coding, or the first exception raised. -/
def stageFile (env : HookEnv) (f : Str) : Except HookExc (Str × Str × Option Str) :=
  match env.workingLines f with
  | none => .error .ioError
  | some lines =>
    let coding := detectCoding lines
    let decoded :=
      match coding with
      | some c => env.decodeWith c (env.stagedRaw f)
      | none => env.decodeDefault (env.stagedRaw f)
    match decoded with
    | none => .error .decodeError
    | some out0 =>
      let fname := materializedPath (pathJoin env.cwd f) env.tmpdir
      let written :=
        match coding with
        | some c => env.encodeWith c out0
        | none => env.encodeDefault out0
      match written with
      | none => .error .encodeError
      | some out => .ok (fname, out, coding)

/-- `stageFile` with the working-tree observation abstracted out: the
argument is `none` when `open` raises, else the detected coding.  This is
a proof device: `stageFile env f = stageCore env f (wtObs env f)`
(`stageFile_eq_core` below), which makes explicit that the staging step
reads the working tree only through that observation. -/
def stageCore (env : HookEnv) (f : Str) :
    Option (Option Str) → Except HookExc (Str × Str × Option Str)
  | none => .error .ioError
  | some coding =>
    let decoded :=
      match coding with
      | some c => env.decodeWith c (env.stagedRaw f)
      | none => env.decodeDefault (env.stagedRaw f)
    match decoded with
    | none => .error .decodeError
    | some out0 =>
      let fname := materializedPath (pathJoin env.cwd f) env.tmpdir
      let written :=
        match coding with
        | some c => env.encodeWith c out0
        | none => env.encodeDefault out0
      match written with
      | none => .error .encodeError
      | some out => .ok (fname, out, coding)

/-- Observable outcome of the staging loop. -/
structure StageOut where
  /-- Files written under the staging root, in order: materialized path
  and written bytes. -/
  writes : List (Str × Str)
  /-- Detected coding per processed changed file, in order. -/
  codings : List (Str × Option Str)
  /-- The value of the loop variable `filename` after the loop (the last
  iteration's materialized path), if any iteration completed. -/
  lastName : Option Str
  /-- The first exception raised inside the loop, if any. -/
  abort : Option HookExc
deriving DecidableEq

/-- The staging loop of `git_hook` over the changed-file list: each file
is staged in turn; an exception stops the loop, leaving earlier writes in
place. -/
def runStaging (env : HookEnv) : List Str → StageOut
  | [] => { writes := [], codings := [], lastName := none, abort := none }
  | f :: rest =>
    match stageFile env f with
    | .error e => { writes := [], codings := [], lastName := none, abort := some e }
    | .ok (fn, out, coding) =>
      let so := runStaging env rest
      { writes := (fn, out) :: so.writes
        codings := (f, coding) :: so.codings
        lastName := some (so.lastName.getD fn)
        abort := so.abort }

/-- The return-value policy of `git_hook` (`flake8/hooks.py` lines 94-97):
`if strict: return report.total_errors` / `return 0`. -/
def gitHookExit (totalErrors : Nat) (strict : Bool) : Nat :=
  if strict then totalErrors else 0

/-- Everything observable about one `git_hook` run. -/
structure HookOut where
  /-- The hook's return value, or the exception that propagated. -/
  result : Except HookExc Nat
  /-- Files materialized under the staging root, in order. -/
  writes : List (Str × Str)
  /-- Detected coding per processed changed file. -/
  codings : List (Str × Option Str)
  /-- The `files_to_check` list passed to `flake8_style.check_files`. -/
  filesChecked : List Str
  /-- Whether `shutil.rmtree(tmpdir, ignore_errors=True)` was executed. -/
  cleanupAttempted : Bool
  /-- Whether the staging root still exists after the run. -/
  tmpdirExists : Bool

/-- `git_hook` (`flake8/hooks.py` lines 25-97).  `gitResult` is the
`(returncode, stdout lines, stderr lines)` triple of `run(gitcmd)`;
`rmtreeFails` says whether the final `shutil.rmtree(tmpdir,
ignore_errors=True)` fails (its errors are ignored).  Faithful to the
source, `files_to_check.append(filename)` sits *after* the staging loop,
so at most the final changed file is passed to the checker. -/
def gitHook (env : HookEnv) (gitResult : Int × List Str × List Str)
    (rmtreeFails strict : Bool) : HookOut :=
  let files := (gitResult.2.1).filter endsWithPy
  let so := runStaging env files
  let rc : Except HookExc Nat × List Str :=
    match so.abort with
    | some e => (.error e, [])
    | none =>
      match so.lastName with
      | none => (.error .nameError, [])
      | some fn =>
        match env.checkFiles [fn] with
        | none => (.error .checkerError, [fn])
        | some total => (.ok (gitHookExit total strict), [fn])
  { result := rc.1
    writes := so.writes
    codings := so.codings
    filesChecked := rc.2
    cleanupAttempted := true
    tmpdirExists := rmtreeFails }

/-- What `git_hook` observes of the working tree for a changed file `f`:
whether `open` succeeds, and if so the detected coding of the first two
lines.  The hook consumes `workingLines` only through this view. -/
def wtObs (env : HookEnv) (f : Str) : Option (Option Str) :=
  (env.workingLines f).map detectCoding

/-!
## `run.py`: `check_file`, `hg_hook`, `read_stdin`, `main`'s exit policy
-/

/-- The value bound to `check_file`'s `ignore` parameter.  Call sites pass
a tuple (the `()` default), `None`, a comma-list string, a list of codes
— or, in `hg_hook`, the integer complexity configuration. -/
inductive IgnoreArg where
  /-- The default `()`. -/
  | emptyTuple
  /-- `None`. -/
  | noneArg
  /-- A string such as `'E4,W'`. -/
  | strArg (s : Str)
  /-- A list of code strings. -/
  | listArg (l : List Str)
  /-- An integer (what `hg_hook` actually passes). -/
  | intArg (n : Int)
deriving DecidableEq

/-- Oracle environment for `run.py`: the pep8 style guide and the
external checkers. -/
structure RunEnv where
  /-- `pep8style.excluded(path)`. -/
  excluded : Str → Bool
  /-- `flakey.print_messages(flakey.checkPath(path), ignore=ignore)`:
  the semantic checker's diagnostic count. -/
  flakeyCount : Str → IgnoreArg → Nat
  /-- `pep8style.input_file(path)`: the style checker's count. -/
  pep8Count : Str → Nat
  /-- `mccabe.get_module_complexity(path, complexity)`: the complexity
  checker's count. -/
  mccabeCount : Str → Int → Nat

/-- `check_file` (`flake8/run.py` lines 21-29): excluded paths return `0`
immediately; otherwise the semantic and style counts are summed and the
complexity checker is added only when `complexity > -1`. -/
def check_file (env : RunEnv) (path : Str) (ignore : IgnoreArg) (complexity : Int) : Nat :=
  if env.excluded path then 0
  else
    let warnings := env.flakeyCount path ignore + env.pep8Count path
    if complexity > -1 then warnings + env.mccabeCount path complexity else warnings

/-- `hg_hook` (`flake8/run.py` lines 210-223): for each enumerated file it
executes `check_file(file_, complexity)` — the configured complexity is
passed *positionally* as `check_file`'s second parameter `ignore`, and the
`complexity` parameter keeps its default `-1`. -/
def hg_hook (env : RunEnv) (complexityCfg : Int) (strict : Bool) (files : List Str) : Nat :=
  let warnings := (files.map (fun f => check_file env f (IgnoreArg.intArg complexityCfg) (-1))).sum
  if strict then warnings else 0

/-- The timeout, in seconds, that `read_stdin` (`flake8/run.py` line 61)
passes to `select.select([sys.stdin], [], [], 1.)`. -/
def selectTimeoutSeconds : Nat := 1

/-- `read_stdin` (`flake8/run.py` lines 59-66): `ready` is whether
`select` reported `sys.stdin` readable within the timeout; on timeout the
message `'input not specified'` is printed and `SystemExit(1)` raised
(modelled as the error payload), otherwise the whole of standard input is
returned. -/
def read_stdin (ready : Bool) (content : Str) : Except (Nat × Str) Str :=
  if ready then .ok content else .error (1, strL "input not specified")

/-- The exit-signal computation at the end of `main` (`flake8/run.py`
lines 122-125): `SystemExit(0)` under `--exit-zero`, else
`SystemExit(warnings)`. -/
def mainExitSignal (warnings : Nat) (exitZero : Bool) : Nat :=
  if exitZero then 0 else warnings

/-- Modelled from the spec's words (section 4.5 Result Policy), for
comparison with the code's two policy sites `gitHookExit` and
`mainExitSignal`: exit 0 under `exitZero`; else the total under `strict`;
else 0. -/
def specResultPolicy (totalErrors : Nat) (strict exitZero : Bool) : Nat :=
  if exitZero then 0 else if strict then totalErrors else 0

/-!
## Concrete oracle environments used to evaluate the embeddings
-/

/-- ASCII-only environment for the end-to-end scenario of the spec:
changed files `a.py` and `b.py`, all content plain ASCII, and a style
checker that flags exactly one issue in the staged copy of `a.py`
(and nothing anywhere else). -/
def envC1 : HookEnv where
  cwd := strL "/repo"
  tmpdir := strL "/tmp/t"
  workingLines := fun _ => some []
  stagedRaw := fun _ => strL "x = 1"
  decodeWith := fun _ b => some b
  decodeDefault := fun b => some b
  encodeWith := fun _ b => some b
  encodeDefault := fun b => some b
  checkFiles := fun ps => some (if (strL "/tmp/t/repo/a.py") ∈ ps then 1 else 0)

/-- Environment for the failed-enumeration scenario: the checker finds
nothing anywhere. -/
def envC4 : HookEnv where
  cwd := strL "/repo"
  tmpdir := strL "/tmp/t"
  workingLines := fun _ => some []
  stagedRaw := fun _ => strL "ok"
  decodeWith := fun _ b => some b
  decodeDefault := fun b => some b
  encodeWith := fun _ b => some b
  encodeDefault := fun b => some b
  checkFiles := fun _ => some 0

/-- Environment with one changed file `a.py` whose staged content is the
single byte 200 (valid latin-1, not ASCII/UTF-8), a codec oracle
faithful to those encodings on this input, and a working-tree copy whose
first line declares `latin-1`. -/
def envC5A : HookEnv where
  cwd := strL "/repo"
  tmpdir := strL "/tmp/t"
  workingLines := fun _ => some [strL "# coding: latin-1"]
  stagedRaw := fun _ => [Char.ofNat 200]
  decodeWith := fun c b => if c = strL "latin-1" then some b else none
  decodeDefault := fun b => if b.all (fun ch => decide (ch.toNat < 128)) then some b else none
  encodeWith := fun c b => if c = strL "latin-1" then some b else none
  encodeDefault := fun b => if b.all (fun ch => decide (ch.toNat < 128)) then some b else none
  checkFiles := fun _ => some 0

/-- The same environment — same index-recorded content, codecs and
checker — with a different working tree: the on-disk copy of the file
declares no coding. -/
def envC5B : HookEnv :=
  { envC5A with workingLines := fun _ => some [strL "# hello"] }

/-- The `run(gitcmd)` triple for the single changed file `a.py`. -/
def gitResC5 : Int × List Str × List Str := (0, [strL "a.py"], [])

/-- A `run.py` environment whose style guide excludes every path while
every checker reports a nonzero count. -/
def envC10 : RunEnv where
  excluded := fun _ => true
  flakeyCount := fun _ _ => 3
  pep8Count := fun _ => 2
  mccabeCount := fun _ _ => 5

/-!
## Theorems
-/

section HelperLemmas

/-- `stageFile` factors through the working-tree observation `wtObs`. -/
theorem stageFile_eq_core (env : HookEnv) (f : Str) :
    stageFile env f = stageCore env f (wtObs env f) := by
  unfold stageFile stageCore wtObs
  cases env.workingLines f <;> rfl

/-- `stageCore` does not read `workingLines` at all. -/
theorem stageCore_update (env : HookEnv) (w : Str → Option (List Str)) (f : Str)
    (obs : Option (Option Str)) :
    stageCore { env with workingLines := w } f obs = stageCore env f obs := rfl

/-- `stageFile` reads the working tree only through `wtObs` (open
success plus the detected coding of the first two lines). -/
theorem stageFile_wtObs_congr (env : HookEnv) (w : Str → Option (List Str)) (f : Str)
    (h : wtObs env f = wtObs { env with workingLines := w } f) :
    stageFile env f = stageFile { env with workingLines := w } f := by
  rw [stageFile_eq_core, stageFile_eq_core, h, ← stageCore_update env w f]

/-- `runStaging` reads the working tree only through `wtObs` on the
files it visits. -/
theorem runStaging_wtObs_congr (env : HookEnv) (w : Str → Option (List Str)) :
    ∀ files : List Str,
      (∀ f ∈ files, wtObs env f = wtObs { env with workingLines := w } f) →
      runStaging env files = runStaging { env with workingLines := w } files := by
  intro files
  induction files with
  | nil => intro _; rfl
  | cons f rest ih =>
    intro h
    unfold runStaging
    rw [stageFile_wtObs_congr env w f (h f (List.mem_cons_self f rest)),
      ih (fun g hg => h g (List.mem_cons_of_mem f hg))]

/-- `check_file` with the default complexity `-1` never consults the
complexity oracle. -/
theorem check_file_default_complexity (env : RunEnv) (m : Str → Int → Nat)
    (p : Str) (i : IgnoreArg) :
    check_file { env with mccabeCount := m } p i (-1) = check_file env p i (-1) := by
  simp [check_file]

end HelperLemmas

/-- C1 [code_bug]: the spec's end-to-end scenario — changed files
`[a.py, b.py]`, a style checker flagging one issue in `a.py`, empty
ignore set — must give total count 1 with every changed file passed to
the checker.  In the code, `files_to_check.append(filename)` sits outside
the staging loop (`flake8/hooks.py` line 86), so although both files are
materialized into the staging tree, only the last one (`b.py`) is passed
to `check_files`, and the run's total is 0, not 1. -/
theorem c1_only_last_file_checked :
    (gitHook envC1 (0, [strL "a.py", strL "b.py"], []) false true).result = Except.ok 0 ∧
    (gitHook envC1 (0, [strL "a.py", strL "b.py"], []) false true).filesChecked =
      [strL "/tmp/t/repo/b.py"] ∧
    (gitHook envC1 (0, [strL "a.py", strL "b.py"], []) false true).writes.map Prod.fst =
      [strL "/tmp/t/repo/a.py", strL "/tmp/t/repo/b.py"] :=
  ⟨rfl, rfl, rfl⟩

/-- C2 [confirmed]: the `try`/`finally` of `git_hook` (`flake8/hooks.py`
lines 57-92) runs `shutil.rmtree(tmpdir, ignore_errors=True)` on every
exit path — normal return, nonzero total, or any exception raised inside
the loop or by the checker — so after the run the staging root exists
only if the deletion itself failed, and because `ignore_errors=True` a
deletion failure neither changes the hook's result nor raises. -/
theorem c2_cleanup_on_every_exit_path :
    ∀ (env : HookEnv) (gr : Int × List Str × List Str) (b b1 b2 strict : Bool),
      (gitHook env gr b strict).cleanupAttempted = true ∧
      (gitHook env gr b strict).tmpdirExists = b ∧
      (gitHook env gr b1 strict).result = (gitHook env gr b2 strict).result :=
  fun _ _ _ _ _ _ => ⟨rfl, rfl, rfl⟩

/-- C3 [confirmed]: the two policy sites of the code — `git_hook`'s
return (`flake8/hooks.py` lines 94-97, no exit-zero flag exists there)
and `main`'s exit (`flake8/run.py` lines 122-125, which is strict) —
agree with the spec's combined deterministic policy
`specResultPolicy (totalErrors, strict, exitZero)` on their respective
slices. -/
theorem c3_result_policy :
    ∀ (t : Nat) (s z : Bool),
      gitHookExit t s = specResultPolicy t s false ∧
      mainExitSignal t z = specResultPolicy t true z := by
  intro t s z
  cases s <;> cases z <;> exact ⟨rfl, rfl⟩

/-- C4 counterexample: with the VCS command failing (return code 1) but
one line `a.py` parsed from its output, `git_hook` does not abort: it
stages the file and returns a passing result `0` — contradicting the
claim that a failed enumeration signals `VcsUnavailable` and aborts
before any staging or checking. -/
theorem c4_counterexample :
    (gitHook envC4 (1, [strL "a.py"], [strL "fatal: bad revision"]) false true).result =
      Except.ok 0 ∧
    (gitHook envC4 (1, [strL "a.py"], [strL "fatal: bad revision"]) false true).writes ≠ [] ∧
    (gitHook envC4 (1, [strL "a.py"], [strL "fatal: bad revision"]) false true).filesChecked ≠ [] :=
  ⟨rfl, by decide, by decide⟩

/-- C4 [corrected, amended]: `git_hook` binds the return code of
`run(gitcmd)` to `_` (`flake8/hooks.py` line 46) and never reads it: the
whole observable run is independent of the VCS command's exit status, so
no `VcsUnavailable` condition exists and a failed enumeration is checked
exactly as a successful one with the same stdout. -/
theorem c4_amended_exit_status_ignored :
    ∀ (env : HookEnv) (rc1 rc2 : Int) (out err : List Str) (b s : Bool),
      gitHook env (rc1, out, err) b s = gitHook env (rc2, out, err) b s :=
  fun _ _ _ _ _ _ _ => rfl

/-- C5 counterexample: two runs with identical index-recorded content
(one changed file whose staged bytes are the single byte 200), identical
codecs and checker, differing only in the working tree: run A's on-disk
copy declares `latin-1` and the hook decodes, re-encodes and checks
successfully; run B's on-disk copy declares nothing, the staged bytes are
decoded with the default codec, and the run dies with a
`UnicodeDecodeError`.  Detected encodings and results both differ, so the
check does depend on the working tree. -/
theorem c5_counterexample :
    (gitHook envC5A gitResC5 false true).result ≠ (gitHook envC5B gitResC5 false true).result ∧
    (gitHook envC5A gitResC5 false true).codings ≠ (gitHook envC5B gitResC5 false true).codings ∧
    envC5B = { envC5A with workingLines := envC5B.workingLines } ∧
    envC5A.workingLines (strL "a.py") ≠ envC5B.workingLines (strL "a.py") := by
  refine ⟨?_, ?_, rfl, by decide⟩
  · have hA : (gitHook envC5A gitResC5 false true).result = Except.ok 0 := rfl
    have hB : (gitHook envC5B gitResC5 false true).result =
        Except.error HookExc.decodeError := rfl
    rw [hA, hB]
    simp
  · have hA : (gitHook envC5A gitResC5 false true).codings =
        [(strL "a.py", some (strL "latin-1"))] := rfl
    have hB : (gitHook envC5B gitResC5 false true).codings = [] := rfl
    rw [hA, hB]
    simp

/-- C5 [corrected, amended]: the staged bytes fetched by `git show` are
index content, but the *encoding* is detected from the working-tree copy;
the run is a function of the index content once the working-tree
observation (open success + detected coding per changed file) is fixed.
So two runs with identical staged content agree whenever their working
trees yield the same detected encodings — not in general. -/
theorem c5_amended_staged_only_given_detection :
    ∀ (env : HookEnv) (w : Str → Option (List Str)) (gr : Int × List Str × List Str)
      (b s : Bool),
      (∀ f ∈ (gr.2.1).filter endsWithPy, wtObs env f = wtObs { env with workingLines := w } f) →
      gitHook env gr b s = gitHook { env with workingLines := w } gr b s := by
  intro env w gr b s h
  have h2 := runStaging_wtObs_congr env w ((gr.2.1).filter endsWithPy) h
  simp only [gitHook]
  rw [h2]

/-- C5 witness: a run against a working tree with an extra third line
(same detected coding) produces the identical outcome. -/
theorem c5_amended_witness :
    gitHook envC5A gitResC5 false true =
      gitHook { envC5A with
        workingLines := fun _ => some [strL "# coding: latin-1", strL "extra"] }
        gitResC5 false true :=
  c5_amended_staged_only_given_detection envC5A
    (fun _ => some [strL "# coding: latin-1", strL "extra"]) gitResC5 false true (by decide)

/-- C6 [confirmed]: the encoding detector is a total function of the
first two physical lines: later lines never matter; a match in line one
wins; otherwise a match in line two wins; with no match in either line
the sentinel `none` (use the default) is returned — no failure mode
exists for missing or malformed declarations. -/
theorem c6_coding_detector_contract :
    (∀ l1 l2 rest, detectCoding (l1 :: l2 :: rest) = detectCoding [l1, l2]) ∧
    (∀ l1 l2 rest c, searchCoding l1 = some c →
      detectCoding (l1 :: l2 :: rest) = some c) ∧
    (∀ l1 l2 rest c, searchCoding l1 = none → searchCoding l2 = some c →
      detectCoding (l1 :: l2 :: rest) = some c) ∧
    (∀ l1 l2 rest, searchCoding l1 = none → searchCoding l2 = none →
      detectCoding (l1 :: l2 :: rest) = none) := by
  refine ⟨fun l1 l2 rest => rfl, ?_, ?_, ?_⟩
  · intro l1 l2 rest c h
    simp [detectCoding, List.getD, h]
  · intro l1 l2 rest c h1 h2
    simp [detectCoding, List.getD, h1, h2]
  · intro l1 l2 rest h1 h2
    simp [detectCoding, List.getD, h1, h2]

/-- C6 witness: a declaration on line one is honored even when
contradicted on line three. -/
theorem c6_witness :
    detectCoding [strL "# coding: utf-8", strL "x = 1", strL "# coding: later"] =
      some (strL "utf-8") :=
  c6_coding_detector_contract.2.1 (strL "# coding: utf-8") (strL "x = 1")
    [strL "# coding: later"] (strL "utf-8") (by decide)

/-- C8 [confirmed]: `read_stdin` (`flake8/run.py` lines 59-66) waits on
`select.select([sys.stdin], [], [], 1.)` — a one-second timeout; when
nothing is readable it prints `input not specified` and raises
`SystemExit(1)`; when data is ready the whole of standard input is
returned. -/
theorem c8_stdin_timeout :
    selectTimeoutSeconds = 1 ∧
    (∀ content, read_stdin false content = Except.error (1, strL "input not specified")) ∧
    (∀ content, read_stdin true content = Except.ok content) :=
  ⟨rfl, fun _ => rfl, fun _ => rfl⟩

/-- C9 [confirmed]: `hg_hook` (`flake8/run.py` line 216) calls
`check_file(file_, complexity)`, so the configured complexity lands in
the `ignore` parameter and `check_file` keeps its default complexity
`-1`: the run is independent of the complexity oracle — the complexity
checker is never invoked from this hook, whatever threshold is
configured. -/
theorem c9_hg_hook_complexity_never_used :
    ∀ (env : RunEnv) (m : Str → Int → Nat) (cfg : Int) (s : Bool) (files : List Str),
      hg_hook { env with mccabeCount := m } cfg s files = hg_hook env cfg s files ∧
      hg_hook env cfg s files =
        (if s then (files.map (fun f => check_file env f (IgnoreArg.intArg cfg) (-1))).sum
         else 0) := by
  intro env m cfg s files
  refine ⟨?_, rfl⟩
  unfold hg_hook
  rw [funext (fun f => check_file_default_complexity env m f (IgnoreArg.intArg cfg))]

/-- C10 [confirmed]: for any oracle environment — in particular whatever
counts the semantic, style and complexity checkers would report —
`check_file` returns 0 immediately on a path matched by the style guide's
exclusion set. -/
theorem c10_excluded_returns_zero :
    ∀ (env : RunEnv) (path : Str) (ignore : IgnoreArg) (complexity : Int),
      env.excluded path = true → check_file env path ignore complexity = 0 := by
  intro env path i c h
  simp [check_file, h]

/-- C10 witness: an excluded file contributes zero even though every
checker oracle reports nonzero counts. -/
theorem c10_witness : check_file envC10 (strL "x.py") IgnoreArg.emptyTuple 7 = 0 :=
  c10_excluded_returns_zero envC10 (strL "x.py") IgnoreArg.emptyTuple 7 rfl

section PathLemmas

/-- Components produced by the splitter are non-empty and slash-free
(provided the accumulator is slash-free). -/
theorem splitAllGo_mem (p : Str) : ∀ (cur : Str), '/' ∉ cur →
    ∀ x ∈ splitAllGo cur p, x ≠ [] ∧ '/' ∉ x := by
  induction p with
  | nil =>
    intro cur hcur x hx
    unfold splitAllGo at hx
    by_cases h : cur = []
    · simp [h] at hx
    · simp only [h, if_neg, if_false, List.mem_singleton] at hx
      subst hx
      refine ⟨by simpa using h, by simpa using hcur⟩
  | cons c rest ih =>
    intro cur hcur x hx
    unfold splitAllGo at hx
    by_cases hc : c = '/'
    · simp only [hc, if_true, if_pos rfl] at hx
      by_cases h : cur = []
      · rw [if_pos h] at hx
        exact ih [] (by simp) x hx
      · rw [if_neg h] at hx
        rcases List.mem_cons.mp hx with h1 | h2
        · subst h1
          exact ⟨by simpa using h, by simpa using hcur⟩
        · exact ih [] (by simp) x h2
    · rw [if_neg hc] at hx
      refine ih (c :: cur) ?_ x hx
      intro hm
      rcases List.mem_cons.mp hm with h1 | h2
      · exact hc h1.symm
      · exact hcur h2

/-- Components of `splitAll` are non-empty and slash-free. -/
theorem splitAll_mem (p : Str) : ∀ x ∈ splitAll p, x ≠ [] ∧ '/' ∉ x :=
  splitAllGo_mem p [] (by simp)

/-- The component-wise common-prefix length is bounded by the left list. -/
theorem lcpLen_le_left : ∀ (a b : List Str), lcpLen a b ≤ a.length := by
  intro a
  induction a with
  | nil => intro b; cases b <;> simp [lcpLen]
  | cons x xs ih =>
    intro b
    cases b with
    | nil => simp [lcpLen]
    | cons y ys =>
      unfold lcpLen
      by_cases h : x = y
      · rw [if_pos h]
        exact Nat.succ_le_succ (ih ys)
      · rw [if_neg h]
        exact Nat.zero_le _

/-- The component-wise common-prefix length is bounded by the right list. -/
theorem lcpLen_le_right : ∀ (a b : List Str), lcpLen a b ≤ b.length := by
  intro a
  induction a with
  | nil => intro b; cases b <;> simp [lcpLen]
  | cons x xs ih =>
    intro b
    cases b with
    | nil => simp [lcpLen]
    | cons y ys =>
      unfold lcpLen
      by_cases h : x = y
      · rw [if_pos h]
        exact Nat.succ_le_succ (ih ys)
      · rw [if_neg h]
        exact Nat.zero_le _

/-- Up to the common-prefix length the two lists agree. -/
theorem take_lcpLen_eq : ∀ (a b : List Str), b.take (lcpLen a b) = a.take (lcpLen a b) := by
  intro a
  induction a with
  | nil => intro b; cases b <;> simp [lcpLen]
  | cons x xs ih =>
    intro b
    cases b with
    | nil => simp [lcpLen]
    | cons y ys =>
      unfold lcpLen
      by_cases h : x = y
      · rw [if_pos h]
        simp only [List.take_succ_cons, h]
        rw [ih ys]
      · rw [if_neg h]
        simp

/-- A leading block of copies of `a` followed by an `a`-free tail
decomposes uniquely. -/
theorem replicate_append_inj (a : Str) : ∀ (k1 k2 : Nat) (t1 t2 : List Str),
    a ∉ t1 → a ∉ t2 →
    List.replicate k1 a ++ t1 = List.replicate k2 a ++ t2 → k1 = k2 ∧ t1 = t2 := by
  intro k1
  induction k1 with
  | zero =>
    intro k2 t1 t2 ht1 ht2 heq
    cases k2 with
    | zero => exact ⟨rfl, by simpa using heq⟩
    | succ k =>
      rw [List.replicate_succ] at heq
      simp only [List.replicate, List.nil_append, List.cons_append] at heq
      rw [heq] at ht1
      exact absurd (List.mem_cons_self a _) ht1
  | succ k ih =>
    intro k2 t1 t2 ht1 ht2 heq
    cases k2 with
    | zero =>
      rw [List.replicate_succ] at heq
      simp only [List.replicate, List.nil_append, List.cons_append] at heq
      rw [← heq] at ht2
      exact absurd (List.mem_cons_self a _) ht2
    | succ k2' =>
      rw [List.replicate_succ, List.replicate_succ] at heq
      simp only [List.cons_append, List.cons.injEq] at heq
      obtain ⟨hk, ht⟩ := ih k2' t1 t2 ht1 ht2 heq.2
      exact ⟨by omega, ht⟩

/-- Slash-free prefixes before the first separator coincide. -/
theorem slashfree_append_cons_inj : ∀ (x y A B : Str), '/' ∉ x → '/' ∉ y →
    x ++ '/' :: A = y ++ '/' :: B → x = y ∧ A = B := by
  intro x
  induction x with
  | nil =>
    intro y A B hx hy heq
    cases y with
    | nil => exact ⟨rfl, by simpa using heq⟩
    | cons d y' =>
      simp only [List.nil_append, List.cons_append, List.cons.injEq] at heq
      exact absurd (heq.1 ▸ List.mem_cons_self d y') hy
  | cons c x' ih =>
    intro y A B hx hy heq
    cases y with
    | nil =>
      simp only [List.nil_append, List.cons_append, List.cons.injEq] at heq
      exact absurd (heq.1 ▸ List.mem_cons_self c x') hx
    | cons d y' =>
      simp only [List.cons_append, List.cons.injEq] at heq
      obtain ⟨h1, h2⟩ := ih y' A B
        (fun hm => hx (List.mem_cons_of_mem c hm))
        (fun hm => hy (List.mem_cons_of_mem d hm)) heq.2
      exact ⟨by rw [heq.1, h1], h2⟩

/-- `interSlash` is injective on lists of non-empty slash-free
components. -/
theorem interSlash_inj : ∀ (l1 l2 : List Str),
    (∀ x ∈ l1, x ≠ [] ∧ '/' ∉ x) → (∀ x ∈ l2, x ≠ [] ∧ '/' ∉ x) →
    interSlash l1 = interSlash l2 → l1 = l2 := by
  intro l1
  induction l1 with
  | nil =>
    intro l2 h1 h2 heq
    cases l2 with
    | nil => rfl
    | cons y ys =>
      cases ys with
      | nil => exact absurd heq.symm (h2 y (List.mem_cons_self y [])).1
      | cons z zs =>
        simp only [interSlash] at heq
        rcases List.append_eq_nil.mp heq.symm with ⟨hy, _⟩
        exact absurd hy (h2 y (List.mem_cons_self y _)).1
  | cons x xs ih =>
    intro l2 h1 h2 heq
    cases l2 with
    | nil =>
      cases xs with
      | nil => exact absurd heq (h1 x (List.mem_cons_self x [])).1
      | cons w ws =>
        simp only [interSlash] at heq
        rcases List.append_eq_nil.mp heq with ⟨hx, _⟩
        exact absurd hx (h1 x (List.mem_cons_self x _)).1
    | cons y ys =>
      cases xs with
      | nil =>
        cases ys with
        | nil => rw [show (interSlash [x]) = x from rfl, show (interSlash [y]) = y from rfl] at heq; rw [heq]
        | cons z zs =>
          simp only [interSlash] at heq
          have : '/' ∈ x := heq ▸ List.mem_append_right y (List.mem_cons_self '/' _)
          exact absurd this (h1 x (List.mem_cons_self x [])).2
      | cons w ws =>
        cases ys with
        | nil =>
          simp only [interSlash] at heq
          have : '/' ∈ y := heq ▸ List.mem_append_right x (List.mem_cons_self '/' _)
          exact absurd this (h2 y (List.mem_cons_self y [])).2
        | cons z zs =>
          simp only [interSlash] at heq
          obtain ⟨hxy, htail⟩ := slashfree_append_cons_inj x y _ _
            (h1 x (List.mem_cons_self x _)).2 (h2 y (List.mem_cons_self y _)).2 heq
          have hrest := ih (z :: zs)
            (fun a ha => h1 a (List.mem_cons_of_mem x ha))
            (fun a ha => h2 a (List.mem_cons_of_mem y ha)) htail
          rw [hxy, hrest]

/-- `interSlash` of a non-empty valid list is non-empty. -/
theorem interSlash_ne_nil (l : List Str) (hv : ∀ x ∈ l, x ≠ [] ∧ '/' ∉ x)
    (hne : l ≠ []) : interSlash l ≠ [] := by
  cases l with
  | nil => exact absurd rfl hne
  | cons x xs =>
    cases xs with
    | nil => exact (hv x (List.mem_cons_self x [])).1
    | cons w ws =>
      simp only [interSlash]
      intro h
      rcases List.append_eq_nil.mp h with ⟨hx, _⟩
      exact (hv x (List.mem_cons_self x _)).1 hx

/-- A slash-free string has no trailing slash. -/
theorem endsSlash_of_valid (x : Str) (hsl : '/' ∉ x) :
    endsSlash x = false := by
  unfold endsSlash
  rw [decide_eq_false_iff_not]
  intro h
  cases hx : x.reverse with
  | nil => rw [hx] at h; exact Option.noConfusion h
  | cons c cs =>
    rw [hx] at h
    simp only [List.head?, Option.some.injEq] at h
    refine hsl (List.mem_reverse.mp ?_)
    rw [hx, ← h]
    exact List.mem_cons_self c cs

/-- The trailing character of an append with non-empty right part is the
right part's. -/
theorem endsSlash_append (x s : Str) (hs : s ≠ []) :
    endsSlash (x ++ s) = endsSlash s := by
  unfold endsSlash
  rw [List.reverse_append, List.head?_append_of_ne_nil _ (by simpa using hs)]

/-- `interSlash` of a valid non-empty list has no trailing slash. -/
theorem endsSlash_interSlash : ∀ (l : List Str), (∀ x ∈ l, x ≠ [] ∧ '/' ∉ x) →
    l ≠ [] → endsSlash (interSlash l) = false := by
  intro l
  induction l with
  | nil => intro _ h; exact absurd rfl h
  | cons x xs ih =>
    intro hv _
    cases xs with
    | nil =>
      exact endsSlash_of_valid x (hv x (List.mem_cons_self x [])).2
    | cons w ws =>
      show endsSlash (x ++ '/' :: interSlash (w :: ws)) = false
      rw [endsSlash_append x _ (by simp),
        show ('/' :: interSlash (w :: ws)) = ['/'] ++ interSlash (w :: ws) from rfl,
        endsSlash_append ['/'] _
          (interSlash_ne_nil _ (fun a ha => hv a (List.mem_cons_of_mem x ha)) (by simp))]
      exact ih (fun a ha => hv a (List.mem_cons_of_mem x ha)) (by simp)

/-- `interSlash` of a valid non-empty list does not start with a slash. -/
theorem head?_interSlash_ne_slash : ∀ (l : List Str), (∀ x ∈ l, x ≠ [] ∧ '/' ∉ x) →
    l ≠ [] → (interSlash l).head? ≠ some '/' := by
  intro l hv hne
  cases l with
  | nil => exact absurd rfl hne
  | cons x xs =>
    have hx := hv x (List.mem_cons_self x xs)
    have hxh : x.head? ≠ some '/' := by
      cases hc : x with
      | nil => exact absurd hc hx.1
      | cons c cs =>
        intro h
        have hcs : c = '/' := by simpa using h
        refine hx.2 ?_
        rw [hc, hcs]
        exact List.mem_cons_self '/' cs
    cases xs with
    | nil => exact hxh
    | cons w ws =>
      show (x ++ '/' :: interSlash (w :: ws)).head? ≠ some '/'
      rw [List.head?_append_of_ne_nil _ hx.1]
      exact hxh

/-- Entries of a `relList` are non-empty and slash-free. -/
theorem relList_valid (d p : Str) : ∀ x ∈ relList d p, x ≠ [] ∧ '/' ∉ x := by
  intro x hx
  unfold relList at hx
  rcases List.mem_append.mp hx with h | h
  · rw [List.eq_of_mem_replicate h]
    exact ⟨by decide, by decide⟩
  · exact splitAll_mem d x (List.mem_of_mem_drop h)

/-- A `relpath` result is non-empty, has no leading slash and no trailing
slash. -/
theorem relpath_props (d p : Str) :
    relpath d p ≠ [] ∧ (relpath d p).head? ≠ some '/' ∧ endsSlash (relpath d p) = false := by
  unfold relpath
  by_cases h : relList d p = []
  · rw [if_pos h]
    exact ⟨by decide, by decide, by decide⟩
  · rw [if_neg h]
    exact ⟨interSlash_ne_nil _ (relList_valid d p) h,
      head?_interSlash_ne_slash _ (relList_valid d p) h,
      endsSlash_interSlash _ (relList_valid d p) h⟩

/-- `posixpath.join` in the generic branch: a separator is inserted. -/
theorem pathJoin_eq_append (a b : Str) (ha : a ≠ []) (hs : endsSlash a = false)
    (hb : b.head? ≠ some '/') : pathJoin a b = a ++ '/' :: b := by
  unfold pathJoin
  rw [if_neg hb, if_neg]
  intro h
  rcases h with h | h
  · exact ha h
  · rw [hs] at h
    exact Bool.false_ne_true h

/-- An empty `relList` forces the path's components to equal the start's. -/
theorem relList_nil (d p : Str) (h : relList d p = []) : splitAll d = splitAll p := by
  unfold relList at h
  rcases List.append_eq_nil.mp h with ⟨h1, h2⟩
  have hl := lcpLen_le_left (splitAll p) (splitAll d)
  have hr := lcpLen_le_right (splitAll p) (splitAll d)
  rw [List.replicate_eq_nil_iff] at h1
  rw [List.drop_eq_nil_iff] at h2
  have hsl : lcpLen (splitAll p) (splitAll d) = (splitAll p).length := by omega
  have hpl : lcpLen (splitAll p) (splitAll d) = (splitAll d).length := by omega
  calc splitAll d = (splitAll d).take (lcpLen (splitAll p) (splitAll d)) := by
        rw [hpl, List.take_length]
    _ = (splitAll p).take (lcpLen (splitAll p) (splitAll d)) :=
        take_lcpLen_eq (splitAll p) (splitAll d)
    _ = splitAll p := by rw [hsl, List.take_length]

/-- For a fixed start, `relList` determines the path's components
(absent `..` components). -/
theorem relList_inj (d1 d2 p : Str)
    (h1 : pardirS ∉ splitAll d1) (h2 : pardirS ∉ splitAll d2)
    (heq : relList d1 p = relList d2 p) : splitAll d1 = splitAll d2 := by
  unfold relList at heq
  have hd1 : pardirS ∉ (splitAll d1).drop (lcpLen (splitAll p) (splitAll d1)) :=
    fun h => h1 (List.mem_of_mem_drop h)
  have hd2 : pardirS ∉ (splitAll d2).drop (lcpLen (splitAll p) (splitAll d2)) :=
    fun h => h2 (List.mem_of_mem_drop h)
  obtain ⟨hk, ht⟩ := replicate_append_inj pardirS _ _ _ _ hd1 hd2 heq
  have b1 := lcpLen_le_left (splitAll p) (splitAll d1)
  have b2 := lcpLen_le_left (splitAll p) (splitAll d2)
  have hi : lcpLen (splitAll p) (splitAll d1) = lcpLen (splitAll p) (splitAll d2) := by omega
  calc splitAll d1
      = (splitAll d1).take (lcpLen (splitAll p) (splitAll d1)) ++
        (splitAll d1).drop (lcpLen (splitAll p) (splitAll d1)) :=
        (List.take_append_drop _ _).symm
    _ = (splitAll p).take (lcpLen (splitAll p) (splitAll d1)) ++
        (splitAll d2).drop (lcpLen (splitAll p) (splitAll d2)) := by
        rw [take_lcpLen_eq (splitAll p) (splitAll d1), ht]
    _ = (splitAll d2).take (lcpLen (splitAll p) (splitAll d2)) ++
        (splitAll d2).drop (lcpLen (splitAll p) (splitAll d2)) := by
        rw [hi, take_lcpLen_eq (splitAll p) (splitAll d2)]
    _ = splitAll d2 := List.take_append_drop _ _

/-- `interSlash` of a valid list with no `.` entries never yields `.`. -/
theorem interSlash_ne_curdir (l : List Str) (hv : ∀ x ∈ l, x ≠ [] ∧ '/' ∉ x)
    (hnc : ∀ x ∈ l, x ≠ curdirS) (hne : l ≠ []) : interSlash l ≠ curdirS := by
  cases l with
  | nil => exact absurd rfl hne
  | cons x xs =>
    cases xs with
    | nil => exact hnc x (List.mem_cons_self x [])
    | cons w ws =>
      intro h
      have hlen := congrArg List.length h
      have hx := List.length_pos.mpr (hv x (List.mem_cons_self x _)).1
      simp only [interSlash, List.length_append, List.length_cons, curdirS,
        List.length_nil] at hlen
      omega

/-- `relList` entries avoid `.` when the path's components do. -/
theorem relList_ne_curdir (d p : Str) (hc : curdirS ∉ splitAll d) :
    ∀ x ∈ relList d p, x ≠ curdirS := by
  intro x hx
  unfold relList at hx
  rcases List.mem_append.mp hx with h | h
  · rw [List.eq_of_mem_replicate h]
    decide
  · intro hx2
    exact hc (hx2 ▸ List.mem_of_mem_drop h)

/-- For a fixed start, `relpath` determines the path's components for
normalized paths (no `.` or `..` components). -/
theorem relpath_inj (d1 d2 p : Str)
    (hp1 : pardirS ∉ splitAll d1) (hp2 : pardirS ∉ splitAll d2)
    (hc1 : curdirS ∉ splitAll d1) (hc2 : curdirS ∉ splitAll d2)
    (heq : relpath d1 p = relpath d2 p) : splitAll d1 = splitAll d2 := by
  unfold relpath at heq
  by_cases e1 : relList d1 p = [] <;> by_cases e2 : relList d2 p = []
  · rw [relList_nil d1 p e1, relList_nil d2 p e2]
  · rw [if_pos e1, if_neg e2] at heq
    exact absurd heq.symm
      (interSlash_ne_curdir (relList d2 p) (relList_valid d2 p) (relList_ne_curdir d2 p hc2) e2)
  · rw [if_neg e1, if_pos e2] at heq
    exact absurd heq
      (interSlash_ne_curdir (relList d1 p) (relList_valid d1 p) (relList_ne_curdir d1 p hc1) e1)
  · rw [if_neg e1, if_neg e2] at heq
    exact relList_inj d1 d2 p hp1 hp2
      (interSlash_inj _ _ (relList_valid d1 p) (relList_valid d2 p) heq)

end PathLemmas

/-- C7 counterexample: the changed files `/q/util.py` and
`/tmp/q/util.py` share the basename `util.py`, sit in different
directories, yet `git_hook`'s path computation sends both to the *same*
materialized path `/tmp/tmpXYZ/q/util.py` under the staging root
`/tmp/tmpXYZ`: `commonprefix` is character-wise, so the two directories
get different prefixes (`/` and `/tmp/`) whose relative remainders
coincide, and the second staged copy overwrites the first. -/
theorem c7_counterexample :
    (pathSplit (strL "/q/util.py")).2 = (pathSplit (strL "/tmp/q/util.py")).2 ∧
    (pathSplit (strL "/q/util.py")).1 ≠ (pathSplit (strL "/tmp/q/util.py")).1 ∧
    materializedPath (strL "/q/util.py") (strL "/tmp/tmpXYZ") =
      materializedPath (strL "/tmp/q/util.py") (strL "/tmp/tmpXYZ") :=
  ⟨rfl, by decide, rfl⟩

/-- C7 [corrected, amended]: the no-collision guarantee does hold
whenever the two directories receive the *same* character-wise common
prefix with the staging root (in particular in the common case where the
prefix is just `/`).  For normalized absolute files with equal basenames,
different directories and equal `commonprefix` against the staging root,
the materialized paths differ. -/
theorem c7_amended_distinct_when_shared_lcp
    (file1 file2 t f d1 d2 : Str)
    (hs1 : pathSplit file1 = (d1, f)) (hs2 : pathSplit file2 = (d2, f))
    (hp1 : pardirS ∉ splitAll d1) (hp2 : pardirS ∉ splitAll d2)
    (hc1 : curdirS ∉ splitAll d1) (hc2 : curdirS ∉ splitAll d2)
    (hpre : lcpChars d1 t = lcpChars d2 t)
    (hdir : splitAll d1 ≠ splitAll d2)
    (ht0 : t ≠ []) (ht1 : endsSlash t = false)
    (hf : f.head? ≠ some '/') :
    materializedPath file1 t ≠ materializedPath file2 t := by
  intro heq
  unfold materializedPath at heq
  rw [hs1, hs2] at heq
  simp only at heq
  rw [← hpre] at heq
  obtain ⟨r1ne, r1hd, r1end⟩ := relpath_props d1 (lcpChars d1 t)
  obtain ⟨r2ne, r2hd, r2end⟩ := relpath_props d2 (lcpChars d1 t)
  rw [pathJoin_eq_append t _ ht0 ht1 r1hd, pathJoin_eq_append t _ ht0 ht1 r2hd] at heq
  rw [pathJoin_eq_append _ f (by simp) ?e1 hf, pathJoin_eq_append _ f (by simp) ?e2 hf] at heq
  case e1 =>
    rw [endsSlash_append t _ (by simp),
      show ('/' :: relpath d1 (lcpChars d1 t)) = ['/'] ++ relpath d1 (lcpChars d1 t) from rfl,
      endsSlash_append ['/'] _ r1ne]
    exact r1end
  case e2 =>
    rw [endsSlash_append t _ (by simp),
      show ('/' :: relpath d2 (lcpChars d1 t)) = ['/'] ++ relpath d2 (lcpChars d1 t) from rfl,
      endsSlash_append ['/'] _ r2ne]
    exact r2end
  rw [List.append_assoc, List.append_assoc] at heq
  have heq2 := List.append_cancel_left heq
  simp only [List.cons_append, List.cons.injEq, true_and] at heq2
  have heq3 := List.append_cancel_right heq2
  exact hdir (relpath_inj d1 d2 (lcpChars d1 t) hp1 hp2 hc1 hc2 heq3)

/-- C7 witness: `/home/a/util.py` and `/home/b/util.py` against the
staging root `/tmp/tmpX` (shared common prefix `/`) stage to distinct
paths. -/
theorem c7_amended_witness :
    materializedPath (strL "/home/a/util.py") (strL "/tmp/tmpX") ≠
      materializedPath (strL "/home/b/util.py") (strL "/tmp/tmpX") :=
  c7_amended_distinct_when_shared_lcp (strL "/home/a/util.py") (strL "/home/b/util.py")
    (strL "/tmp/tmpX") (strL "util.py") (strL "/home/a") (strL "/home/b")
    (by decide) (by decide) (by decide) (by decide) (by decide) (by decide)
    (by decide) (by decide) (by decide) (by decide) (by decide)
